import Mathlib

/-!
# Verification of the Language-Learning-App JSON utilities

A shallow embedding of `src/db/apply_corrections.py` (a JSON Pointer /
JSON Patch engine) and `src/db/merge_lessons.py` (a lesson-file merger),
with theorems settling the specified properties.

Python's mutable JSON trees are embedded in two ways:

* a *value semantics* (`Json`, `get_value`, `set_value`, `delete_value`,
  `apply_patch`): each operation returns the updated tree.  For documents
  freshly loaded by `json.load` (which never contain aliased subobjects)
  a single traversal/mutation behaves identically to the Python code.
* a *heap semantics* (`HNode`, `hget`, `hset`, `halloc`): objects live at
  addresses in a store, exactly as in CPython, which makes aliasing
  observable.  This model is used to analyse the `copy` operation, whose
  Python implementation installs the very object it read (no `deepcopy`).

JSON numbers are modelled as integers (`Int`); no claim under scrutiny
involves non-integer numerics.
-/

set_option autoImplicit false

/-- A JSON value: the recursive union of null, booleans, numbers, strings,
ordered sequences, and insertion-ordered string-keyed mappings.  Mappings
are represented as association lists in insertion order; genuine Python
dicts never contain duplicate keys (see `wfJ`). -/
inductive Json where
  | null
  | bool (b : Bool)
  | num (n : Int)
  | str (s : String)
  | arr (elems : List Json)
  | obj (fields : List (String × Json))

/-- The exceptions the Python code can raise, one constructor per distinct
`raise` site / builtin exception observed in `apply_corrections.py` and
`merge_lessons.py`. -/
inductive Err where
  /-- `ValueError(f"Invalid path: {path}")` from `parse_path`. -/
  | invalidPointer (path : String)
  /-- `ValueError(f"Cannot navigate through {...}")` from a scalar met mid-walk. -/
  | notNavigable
  /-- `ValueError(f"Cannot set value in {...}")` from `set_value`'s final step. -/
  | cannotSet
  /-- `ValueError(f"Cannot delete from {...}")` from `delete_value`'s final step. -/
  | cannotDelete
  /-- `KeyError` from `current[part]` / `del current[part]` on a dict. -/
  | keyNotFound (k : String)
  /-- `IndexError` from list indexing / assignment / deletion out of range. -/
  | indexOutOfRange
  /-- `ValueError` from `int(part)` on a non-integer literal. -/
  | intParse (s : String)
  /-- `ValueError("Empty path")` from `set_value` / `delete_value`. -/
  | emptyPath
  /-- `ValueError(f"Test failed: ...")` from the `test` operation. -/
  | testFailed
  /-- `KeyError` from `patch['value']` / `patch['from']` on a patch dict. -/
  | missingField (k : String)
  /-- `AttributeError` from `parse_path(None)` when `patch.get('path')` is absent. -/
  | attributeError
  /-- `TypeError` (e.g. subscript-assignment into a non-dict `metadata`). -/
  | typeErr
  /-- `sys.exit(1)` in `merge_lessons` when no file could be loaded. -/
  | noFiles
  deriving DecidableEq

/-! ## Python primitives

Faithful models of the CPython behaviours the scripts rely on:
`int(str)` parsing, list indexing with negative indices, and
insertion-ordered dict get/set/delete. -/

/-- The ASCII whitespace characters `int()` strips from its argument.
(Python also strips some unicode whitespace; the pointer tokens in play
are ASCII.) -/
def isPyWs (c : Char) : Bool :=
  c = ' ' || c = '\t' || c = '\n' || c = '\r' || c = '\x0b' || c = '\x0c'

/-- Digit-sequence part of `int()`: digits with single underscores allowed
between digits (`"1_0"` parses to 10, `"_1"`, `"1_"`, `"1__0"` fail).
`acc` is the value of the digits consumed so far. -/
def pyDigitsAux (acc : Nat) : List Char → Option Nat
  | [] => some acc
  | '_' :: c :: cs =>
    if c.isDigit then pyDigitsAux (acc * 10 + (c.toNat - 48)) cs else none
  | ['_'] => none
  | c :: cs =>
    if c.isDigit then pyDigitsAux (acc * 10 + (c.toNat - 48)) cs else none

/-- Nonempty digit sequence, must start with a digit. -/
def pyDigits : List Char → Option Nat
  | [] => none
  | c :: cs => if c.isDigit then pyDigitsAux (c.toNat - 48) cs else none

/-- Model of Python's `int(s)` for a string `s`: strip ASCII whitespace at
both ends, optional single sign, then a digit sequence.  `none` models the
raised `ValueError`. -/
def pyInt (s : String) : Option Int :=
  let cs := ((s.data.dropWhile isPyWs).reverse.dropWhile isPyWs).reverse
  match cs with
  | '-' :: rest => (pyDigits rest).map (fun n => -(n : Int))
  | '+' :: rest => (pyDigits rest).map (fun n => (n : Int))
  | rest => (pyDigits rest).map (fun n => (n : Int))

/-- Normalise a Python index `i` against a list of length `n`: indices in
`[0, n-1]` are themselves, indices in `[-n, -1]` count from the end,
anything else is an `IndexError` (`none`). -/
def pyNorm (n : Nat) (i : Int) : Option Nat :=
  if 0 ≤ i then (if i < (n : Int) then some i.toNat else none)
  else (if -i ≤ (n : Int) then some (n - (-i).toNat) else none)

theorem pyNorm_lt {n : Nat} {i : Int} {k : Nat} (h : pyNorm n i = some k) : k < n := by
  unfold pyNorm at h
  split at h
  · split at h
    · rename_i h0 hn
      cases h
      omega
    · exact absurd h (by simp)
  · split at h
    · rename_i h0 hn
      cases h
      have : 1 ≤ -i := by omega
      omega
    · exact absurd h (by simp)

/-- `l[i]` on a Python list: `none` is an `IndexError`. -/
def pyGet {α : Type} (l : List α) (i : Int) : Option α :=
  (pyNorm l.length i).bind (fun k => l.get? k)

/-- `l[i] = x` on a Python list: `none` is an `IndexError`. -/
def pySet {α : Type} (l : List α) (i : Int) (x : α) : Option (List α) :=
  (pyNorm l.length i).map (fun k => l.set k x)

/-- `del l[i]` on a Python list: `none` is an `IndexError`. -/
def pyDel {α : Type} (l : List α) (i : Int) : Option (List α) :=
  (pyNorm l.length i).map (fun k => l.eraseIdx k)

/-- `d[k]` on an insertion-ordered dict (first matching key). -/
def dictGet {α : Type} : List (String × α) → String → Option α
  | [], _ => none
  | (k', v) :: rest, k => if k' = k then some v else dictGet rest k

/-- `d[k] = v` on an insertion-ordered dict: update the existing entry in
place (keeping its position), or append a new entry at the end. -/
def dictSet {α : Type} : List (String × α) → String → α → List (String × α)
  | [], k, v => [(k, v)]
  | (k', v') :: rest, k, v =>
    if k' = k then (k, v) :: rest else (k', v') :: dictSet rest k v

/-- `del d[k]` on an insertion-ordered dict: `none` is a `KeyError`. -/
def dictDel {α : Type} : List (String × α) → String → Option (List (String × α))
  | [], _ => none
  | (k', v') :: rest, k =>
    if k' = k then some rest else (dictDel rest k).map (fun r => (k', v') :: r)

/-! ## Pointer parsing (`parse_path`) -/

/-- Python's `s.split('/')` on the character list of `s`: always returns at
least one (possibly empty) piece. -/
def splitSlash : List Char → List (List Char)
  | [] => [[]]
  | '/' :: rest => [] :: splitSlash rest
  | c :: rest =>
    match splitSlash rest with
    | t :: ts => (c :: t) :: ts
    | [] => [[c]]

/-- `part.replace('~1', '/')`: left-to-right, non-overlapping. -/
def unescapeA : List Char → List Char
  | '~' :: '1' :: rest => '/' :: unescapeA rest
  | c :: rest => c :: unescapeA rest
  | [] => []

/-- `part.replace('~0', '~')`: left-to-right, non-overlapping. -/
def unescapeB : List Char → List Char
  | '~' :: '0' :: rest => '~' :: unescapeB rest
  | c :: rest => c :: unescapeB rest
  | [] => []

/-- JSON Pointer token unescaping, `~1` first and then `~0`, as in
`part.replace('~1', '/').replace('~0', '~')`. -/
def unescapeTok (t : List Char) : String :=
  ⟨unescapeB (unescapeA t)⟩

/-- `parse_path` from `apply_corrections.py`: reject paths not starting
with `/` (the empty string included, since `"".startswith('/')` is false),
drop the leading slash, split on `/`, unescape each token. -/
def parse_path (path : String) : Except Err (List String) :=
  match path.data with
  | '/' :: rest => .ok ((splitSlash rest).map unescapeTok)
  | _ => .error (.invalidPointer path)

theorem splitSlash_ne_nil (cs : List Char) : splitSlash cs ≠ [] := by
  unfold splitSlash
  split
  · simp
  · simp
  · split <;> simp

/-! ## Value navigation (`get_value`, `set_value`, `delete_value`)

Value-semantics translations of the three traversal functions.  At a list
node, the walk computes `idx = int(part)` (with `'-'` mapping to
`len(current)` in `get_value`, which always raises `IndexError`) and
indexes with Python semantics (`pyNorm`); when `pyNorm` succeeds the index
is in bounds (`pyNorm_lt`), so `List.getD` reads exactly the element
`current[idx]` reads. -/

/-- `get_value(obj, path_parts)` from `apply_corrections.py`. -/
def get_value (current : Json) : List String → Except Err Json
  | [] => .ok current
  | part :: rest =>
    match current with
    | .arr l =>
      if part = "-" then
        -- `idx = len(current)`, then `current[idx]` raises IndexError
        .error .indexOutOfRange
      else
        match pyInt part with
        | none => .error (.intParse part)
        | some i =>
          match pyNorm l.length i with
          | none => .error .indexOutOfRange
          | some k => get_value (l.getD k .null) rest
    | .obj d =>
      match dictGet d part with
      | none => .error (.keyNotFound part)
      | some child => get_value child rest
    | _ => .error .notNavigable

/-- `set_value(obj, path_parts, value)`: walk all but the last token like
`get_value` (without the `'-'` special case: `int('-')` raises), then
assign at the final token.  The value-semantics translation reinstalls the
updated child in the (copy of the) parent at each level, which for an
alias-free document is observationally the Python in-place mutation. -/
def set_value (current : Json) (parts : List String) (value : Json) :
    Except Err Json :=
  match parts with
  | [] => .error .emptyPath
  | [last] =>
    match current with
    | .arr l =>
      if last = "-" then .ok (.arr (l ++ [value]))  -- `current.append(value)`
      else
        match pyInt last with
        | none => .error (.intParse last)
        | some i =>
          match pySet l i value with                -- `current[idx] = value`
          | none => .error .indexOutOfRange
          | some l' => .ok (.arr l')
    | .obj d => .ok (.obj (dictSet d last value))   -- `current[last_part] = value`
    | _ => .error .cannotSet
  | part :: rest =>
    match current with
    | .arr l =>
      match pyInt part with
      | none => .error (.intParse part)
      | some i =>
        match pyNorm l.length i with
        | none => .error .indexOutOfRange
        | some k =>
          (set_value (l.getD k .null) rest value).map (fun c => .arr (l.set k c))
    | .obj d =>
      match dictGet d part with
      | none => .error (.keyNotFound part)
      | some child =>
        (set_value child rest value).map (fun c => .obj (dictSet d part c))
    | _ => .error .notNavigable

/-- `delete_value(obj, path_parts)`: same walk as `set_value`, then
`del current[idx]` / `del current[last_part]` at the final token (no `'-'`
case: `int('-')` raises `ValueError`). -/
def delete_value (current : Json) (parts : List String) : Except Err Json :=
  match parts with
  | [] => .error .emptyPath
  | [last] =>
    match current with
    | .arr l =>
      match pyInt last with
      | none => .error (.intParse last)
      | some i =>
        match pyDel l i with
        | none => .error .indexOutOfRange
        | some l' => .ok (.arr l')
    | .obj d =>
      match dictDel d last with
      | none => .error (.keyNotFound last)
      | some d' => .ok (.obj d')
    | _ => .error .cannotDelete
  | part :: rest =>
    match current with
    | .arr l =>
      match pyInt part with
      | none => .error (.intParse part)
      | some i =>
        match pyNorm l.length i with
        | none => .error .indexOutOfRange
        | some k =>
          (delete_value (l.getD k .null) rest).map (fun c => .arr (l.set k c))
    | .obj d =>
      match dictGet d part with
      | none => .error (.keyNotFound part)
      | some child =>
        (delete_value child rest).map (fun c => .obj (dictSet d part c))
    | _ => .error .notNavigable

/-! ## Structural equality (`current != value` in the `test` operation)

Python `==` on JSON trees: numbers and booleans compare across types
(`True == 1`), lists element-wise in order, dicts key-by-key regardless of
insertion order. -/

mutual

/-- Python `==` on two JSON values. -/
def pyEq : Json → Json → Bool
  | .null, .null => true
  | .bool a, .bool b => a == b
  | .bool a, .num n => (if a then (1 : Int) else 0) == n
  | .num n, .bool a => n == (if a then (1 : Int) else 0)
  | .num a, .num b => a == b
  | .str a, .str b => a == b
  | .arr a, .arr b => pyEqList a b
  | .obj a, .obj b => a.length == b.length && pyEqFields a b
  | _, _ => false

/-- List equality: same length, elements equal in order. -/
def pyEqList : List Json → List Json → Bool
  | [], [] => true
  | x :: xs, y :: ys => pyEq x y && pyEqList xs ys
  | _, _ => false

/-- Each key of the first dict is present in the second with an equal
value; combined with equal sizes (and unique keys) this is dict equality. -/
def pyEqFields : List (String × Json) → List (String × Json) → Bool
  | [], _ => true
  | (k, v) :: rest, b =>
    (match dictGet b k with
     | some w => pyEq v w
     | none => false) && pyEqFields rest b

end

/-! ## The patch dispatcher (`apply_patch`) -/

/-- One entry of the patch list: the fields `apply_patch` reads from the
patch dict.  `patch.get('op')` / `patch.get('path')` return `None` when
absent (`none` here); `patch['value']` / `patch['from']` raise `KeyError`
when absent. -/
structure Patch where
  op : Option String := none
  path : Option String := none
  value : Option Json := none
  fromPath : Option String := none
  comment : Option String := none

/-- The body of one iteration of the loop in `apply_patch`, up to the
`except` handler: parse the path (a `None` path raises `AttributeError`
inside `parse_path`), then dispatch on `op` along the `elif` chain.  Each
raised exception propagates out as `.error`; an unknown `op` only prints
a warning and leaves the document unchanged.  `patch['value']` /
`patch['from']` raise `KeyError` when absent. -/
def applyOne (data : Json) (patch : Patch) : Except Err Json :=
  match patch.path with
  | none => .error .attributeError
  | some pathStr =>
    match parse_path pathStr with
    | .error e => .error e
    | .ok path_parts =>
      if patch.op == some "add" then
        match patch.value with
        | none => .error (.missingField "value")
        | some value => set_value data path_parts value
      else if patch.op == some "remove" then
        delete_value data path_parts
      else if patch.op == some "replace" then
        match patch.value with
        | none => .error (.missingField "value")
        | some value => set_value data path_parts value
      else if patch.op == some "test" then
        match patch.value with
        | none => .error (.missingField "value")
        | some value =>
          match get_value data path_parts with
          | .error e => .error e
          | .ok current =>
            if pyEq current value then .ok data else .error .testFailed
      else if patch.op == some "copy" then
        match patch.fromPath with
        | none => .error (.missingField "from")
        | some from_path =>
          match parse_path from_path with
          | .error e => .error e
          | .ok from_parts =>
            match get_value data from_parts with
            | .error e => .error e
            | .ok value =>
              -- NOTE: installs the object itself — no deep copy (heap model)
              set_value data path_parts value
      else if patch.op == some "move" then
        match patch.fromPath with
        | none => .error (.missingField "from")
        | some from_path =>
          match parse_path from_path with
          | .error e => .error e
          | .ok from_parts =>
            match get_value data from_parts with
            | .error e => .error e
            | .ok value =>
              match delete_value data from_parts with
              | .error e => .error e
              | .ok data1 => set_value data1 path_parts value
      else
        .ok data  -- `print(f"  ✗ Unknown operation: {op}")`, document untouched

/-- `apply_patch(data, patches)` with the interactive prompt abstracted as
a list of decisions: on a per-operation failure the handler asks
`Continue with remaining patches? (y/n)`; `true` consumes one decision and
continues with the document as it was before the failing operation,
anything else re-raises. -/
def apply_patch (data : Json) : List Patch → List Bool → Except Err Json
  | [], _ => .ok data
  | p :: rest, ds =>
    match applyOne data p with
    | .ok d' => apply_patch d' rest ds
    | .error e =>
      match ds with
      | true :: ds' => apply_patch data rest ds'
      | _ => .error e

/-! ## The merge utility (`merge_lessons.py`)

The loop body is modelled on the list of *successfully loaded* documents
(file existence and `json.load` are I/O, out of scope).  Each iteration
runs inside `try/except`: any failure skips that file and leaves the
accumulator untouched. -/

/-- `data[k]` for a string subscript: only dicts support it; everything
else raises (`TypeError` / `KeyError`), which the per-file handler turns
into a skip. -/
def jIndex (d : Json) (k : String) : Option Json :=
  match d with
  | .obj fs => dictGet fs k
  | _ => none

/-- Python `len()`: lists, dicts and strings are sized; other JSON values
raise `TypeError`. -/
def pyLen : Json → Option Nat
  | .arr l => some l.length
  | .obj fs => some fs.length
  | .str s => some s.length
  | _ => none

/-- Replace the value of top-level key `k` (used for the in-place
`merged_data['lessons'].extend(...)`).  Only called on dicts. -/
def setTopKey (m : Json) (k : String) (v : Json) : Json :=
  match m with
  | .obj fs => .obj (dictSet fs k v)
  | other => other

/-- One iteration of the merge loop over a loaded document `data`.  The
accumulator is `None` before the first successful file, afterwards the
pair of the base document and `total_lessons_loaded`.

* first file: `merged_data = data; total = len(data['lessons'])`;
* later files: `merged_data['lessons'].extend(data['lessons']);
  total += len(data['lessons'])`.

`extend` is modelled for list arguments (the only case the dataset and the
claims exercise); a non-list on either side raises inside the `try` and
skips the file, like every other per-file failure. -/
def mergeStep (acc : Option (Json × Nat)) (data : Json) : Option (Json × Nat) :=
  match acc with
  | none =>
    match jIndex data "lessons" with
    | some ls =>
      match pyLen ls with
      | some n => some (data, n)
      | none => none
    | none => none
  | some (m, t) =>
    match jIndex data "lessons" with
    | some newLs =>
      match pyLen newLs with
      | some n =>
        match jIndex m "lessons", newLs with
        | some (.arr old), .arr newl =>
          some (setTopKey m "lessons" (.arr (old ++ newl)), t + n)
        | _, _ => some (m, t)
      | none => some (m, t)
    | none => some (m, t)

/-- The fixed description string written into `metadata.description`. -/
def mergeDescription (total : Nat) : String :=
  "A1 English-Serbian Learning Course - Lessons 1-" ++ toString total

/-- `merge_lessons` on the ordered list of successfully loaded documents:
fold the merge loop, `sys.exit(1)` when nothing loaded, then overwrite
`metadata.total_lessons` and `metadata.description` if a `metadata` key
exists (a non-dict `metadata` makes the uncaught assignment raise). -/
def merge_lessons (docs : List Json) : Except Err Json :=
  match docs.foldl mergeStep none with
  | none => .error .noFiles
  | some (m, total) =>
    match m with
    | .obj fs =>
      match dictGet fs "metadata" with
      | some (.obj mf) =>
        .ok (.obj (dictSet fs "metadata" (.obj
          (dictSet (dictSet mf "total_lessons" (.num (total : Int)))
            "description" (.str (mergeDescription total))))))
      | some _ => .error .typeErr
      | none => .ok m
    | _ => .ok m

/-! ## Heap semantics

CPython objects live at addresses; lists and dicts hold *references*.
`hget` resolves a pointer to an address, `hset` mutates the node holding
the final location, `halloc` deep-allocates a fresh JSON value (what
`json.load` does for patch payloads), and `hread` reads the value graph
back out (with fuel, since `hset` can in principle build cycles).
`copy`'s `set_value(data, path_parts, value)` stores the *address*
returned by `get_value` — the aliasing the value semantics cannot see. -/

/-- One heap node: a scalar, a list of addresses, or a dict mapping keys
to addresses. -/
inductive HNode where
  | scalar (v : Json)
  | harr (elems : List Nat)
  | hobj (fields : List (String × Nat))

/-- The heap: node at address `a` is `h.get? a`. -/
abbrev Heap := List HNode

/-- `get_value` under heap semantics: resolve to the address of the value. -/
def hget (h : Heap) (addr : Nat) : List String → Except Err Nat
  | [] => .ok addr
  | part :: rest =>
    match h.get? addr with
    | some (.harr es) =>
      if part = "-" then .error .indexOutOfRange
      else
        match pyInt part with
        | none => .error (.intParse part)
        | some i =>
          match pyNorm es.length i with
          | none => .error .indexOutOfRange
          | some k => hget h (es.getD k 0) rest
    | some (.hobj fs) =>
      match dictGet fs part with
      | none => .error (.keyNotFound part)
      | some a => hget h a rest
    | some (.scalar _) => .error .notNavigable
    | none => .error .typeErr

/-- `set_value` under heap semantics: walk to the parent's address, then
mutate that node in the heap.  Installing `vaddr` shares whatever object
graph hangs below it. -/
def hset (h : Heap) (addr : Nat) (parts : List String) (vaddr : Nat) :
    Except Err Heap :=
  match parts with
  | [] => .error .emptyPath
  | [last] =>
    match h.get? addr with
    | some (.harr es) =>
      if last = "-" then .ok (h.set addr (.harr (es ++ [vaddr])))
      else
        match pyInt last with
        | none => .error (.intParse last)
        | some i =>
          match pySet es i vaddr with
          | none => .error .indexOutOfRange
          | some es' => .ok (h.set addr (.harr es'))
    | some (.hobj fs) => .ok (h.set addr (.hobj (dictSet fs last vaddr)))
    | some (.scalar _) => .error .cannotSet
    | none => .error .typeErr
  | part :: rest =>
    match h.get? addr with
    | some (.harr es) =>
      match pyInt part with
      | none => .error (.intParse part)
      | some i =>
        match pyNorm es.length i with
        | none => .error .indexOutOfRange
        | some k => hset h (es.getD k 0) rest vaddr
    | some (.hobj fs) =>
      match dictGet fs part with
      | none => .error (.keyNotFound part)
      | some a => hset h a rest vaddr
    | some (.scalar _) => .error .notNavigable
    | none => .error .typeErr

mutual

/-- Deep-allocate a JSON value into the heap (fresh nodes throughout, as
`json.load` produces); returns the extended heap and the root address. -/
def halloc : Heap → Json → Heap × Nat
  | h, .arr xs =>
    let (h', addrs) := hallocList h xs
    (h' ++ [.harr addrs], h'.length)
  | h, .obj fs =>
    let (h', fas) := hallocFields h fs
    (h' ++ [.hobj fas], h'.length)
  | h, v => (h ++ [.scalar v], h.length)

def hallocList : Heap → List Json → Heap × List Nat
  | h, [] => (h, [])
  | h, x :: xs =>
    let (h1, a) := halloc h x
    let (h2, rest) := hallocList h1 xs
    (h2, a :: rest)

def hallocFields : Heap → List (String × Json) → Heap × List (String × Nat)
  | h, [] => (h, [])
  | h, (k, x) :: xs =>
    let (h1, a) := halloc h x
    let (h2, rest) := hallocFields h1 xs
    (h2, (k, a) :: rest)

end

/-- Read the JSON value rooted at `addr` back out of the heap (`fuel`
bounds the depth; cyclic graphs exhaust it). -/
def hread (fuel : Nat) (h : Heap) (addr : Nat) : Option Json :=
  match fuel with
  | 0 => none
  | fuel + 1 =>
    match h.get? addr with
    | some (.scalar v) => some v
    | some (.harr es) => (es.mapM (hread fuel h)).map .arr
    | some (.hobj fs) =>
      (fs.mapM (fun p => (hread fuel h p.2).map (fun v => (p.1, v)))).map .obj
    | none => none

/-! ## Helper lemmas on the container primitives -/

theorem dictGet_dictSet_self {α : Type} (d : List (String × α)) (k : String) (v : α) :
    dictGet (dictSet d k v) k = some v := by
  induction d with
  | nil => simp [dictGet, dictSet]
  | cons p rest ih =>
    obtain ⟨k', v'⟩ := p
    by_cases h : k' = k
    · simp [dictGet, dictSet, h]
    · simp [dictGet, dictSet, h, ih]

theorem dictGet_dictSet_ne {α : Type} (d : List (String × α)) (k j : String) (v : α)
    (h : j ≠ k) : dictGet (dictSet d k v) j = dictGet d j := by
  induction d with
  | nil => simp [dictGet, dictSet, Ne.symm h]
  | cons p rest ih =>
    obtain ⟨k', v'⟩ := p
    by_cases hk : k' = k
    · subst hk
      simp [dictGet, dictSet, Ne.symm h]
    · simp [dictGet, dictSet, hk, ih]

theorem dictSet_same {α : Type} (d : List (String × α)) (k : String) (v : α)
    (h : dictGet d k = some v) : dictSet d k v = d := by
  induction d with
  | nil => simp [dictGet] at h
  | cons p rest ih =>
    obtain ⟨k', v'⟩ := p
    by_cases hk : k' = k
    · subst hk
      simp [dictGet] at h
      simp [dictSet, h]
    · simp [dictGet, hk] at h
      simp [dictSet, hk, ih h]

theorem dictSet_dictSet {α : Type} (d : List (String × α)) (k : String) (a b : α) :
    dictSet (dictSet d k a) k b = dictSet d k b := by
  induction d with
  | nil => simp [dictSet]
  | cons p rest ih =>
    obtain ⟨k', v'⟩ := p
    by_cases hk : k' = k <;> simp [dictSet, hk, ih]

theorem dictSet_absent {α : Type} (d : List (String × α)) (k : String) (v : α)
    (h : dictGet d k = none) : dictSet d k v = d ++ [(k, v)] := by
  induction d with
  | nil => simp [dictSet]
  | cons p rest ih =>
    obtain ⟨k', v'⟩ := p
    by_cases hk : k' = k
    · simp [dictGet, hk] at h
    · simp [dictGet, hk] at h
      simp [dictSet, hk, ih h]

theorem dictDel_append {α : Type} (d : List (String × α)) (k : String) (v : α)
    (h : dictGet d k = none) : dictDel (d ++ [(k, v)]) k = some d := by
  induction d with
  | nil => simp [dictDel]
  | cons p rest ih =>
    obtain ⟨k', v'⟩ := p
    by_cases hk : k' = k
    · simp [dictGet, hk] at h
    · simp [dictGet, hk] at h
      simp [dictDel, hk, ih h]

theorem dictGet_none_of_all {α : Type} (d : List (String × α)) (k : String)
    (h : ∀ p ∈ d, p.1 ≠ k) : dictGet d k = none := by
  induction d with
  | nil => simp [dictGet]
  | cons p rest ih =>
    obtain ⟨k', v'⟩ := p
    have h1 : k' ≠ k := h (k', v') (by simp)
    simp [dictGet, h1]
    exact ih (fun q hq => h q (by simp [hq]))

/-- Duplicate-free key list: the invariant every Python dict satisfies. -/
def keysNodup {α : Type} : List (String × α) → Bool
  | [] => true
  | (k, _) :: rest => rest.all (fun p => p.1 ≠ k) && keysNodup rest

theorem dictGet_dictDel_self {α : Type} (d : List (String × α)) (k : String)
    (d' : List (String × α)) (hd : keysNodup d = true) (h : dictDel d k = some d') :
    dictGet d' k = none := by
  induction d generalizing d' with
  | nil => simp [dictDel] at h
  | cons p rest ih =>
    obtain ⟨k', v'⟩ := p
    simp [keysNodup] at hd
    by_cases hk : k' = k
    · subst hk
      simp [dictDel] at h
      subst h
      exact dictGet_none_of_all _ _ (fun q hq => by
        have := hd.1 q.1 q.2 hq
        simpa using this)
    · simp [dictDel, hk] at h
      obtain ⟨r, hr, hcons⟩ := h
      subst hcons
      simp [dictGet, hk]
      exact ih r hd.2 hr

theorem list_getD_eq {α : Type} {l : List α} {k : Nat} {v : α} (d : α)
    (h : l.get? k = some v) : l.getD k d = v := by
  rw [List.get?_eq_getElem?] at h
  simp [List.getD_eq_getElem?_getD, h]

theorem list_set_getD {α : Type} (l : List α) (k : Nat) (d : α) (h : k < l.length) :
    l.set k (l.getD k d) = l := by
  induction l generalizing k with
  | nil => simp at h
  | cons a as ih =>
    cases k with
    | zero => simp
    | succ n =>
      simp only [List.getD_cons_succ, List.set_cons_succ, List.cons.injEq, true_and]
      exact ih n (by simpa using h)

/-! ## Well-formedness: alias-free Python documents have duplicate-free
dict keys at every object node. -/

mutual

/-- All object nodes in the tree have duplicate-free keys. -/
def wfJ : Json → Bool
  | .arr l => wfList l
  | .obj fs => keysNodup fs && wfFields fs
  | _ => true

def wfList : List Json → Bool
  | [] => true
  | x :: xs => wfJ x && wfList xs

def wfFields : List (String × Json) → Bool
  | [] => true
  | (_, v) :: xs => wfJ v && wfFields xs

end

theorem wfFields_get {fs : List (String × Json)} {k : String} {v : Json}
    (hwf : wfFields fs = true) (h : dictGet fs k = some v) : wfJ v = true := by
  induction fs with
  | nil => simp [dictGet] at h
  | cons p rest ih =>
    obtain ⟨k', v'⟩ := p
    simp [wfFields] at hwf
    by_cases hk : k' = k
    · simp [dictGet, hk] at h
      subst h
      exact hwf.1
    · simp [dictGet, hk] at h
      exact ih hwf.2 h

theorem wfList_get {l : List Json} {k : Nat} {v : Json}
    (hwf : wfList l = true) (h : l.get? k = some v) : wfJ v = true := by
  induction l generalizing k with
  | nil => simp at h
  | cons a as ih =>
    simp [wfList] at hwf
    cases k with
    | zero =>
      rw [List.get?_cons_zero] at h
      cases h
      exact hwf.1
    | succ n =>
      rw [List.get?_cons_succ] at h
      exact ih hwf.2 h

/-! ## Navigation lemmas -/

theorem get_value_nil (d : Json) : get_value d [] = .ok d := rfl

/-- C2: for every root document and every non-root pointer whose tokens
descend only through mappings and sequences of the document (i.e.
`get_value` resolves it), and every value `x`, `set_value` at that pointer
succeeds and an immediate `get_value` returns exactly `x` (structural
equality is equality of the modelled values).  The induction mirrors the
common walk of `get_value` and `set_value`. -/
theorem set_get_roundtrip (p : List String) :
    ∀ (d x w : Json), p ≠ [] → get_value d p = .ok w →
    ∃ d', set_value d p x = .ok d' ∧ get_value d' p = .ok x := by
  induction p with
  | nil => intro d x w h _; exact absurd rfl h
  | cons part rest ih =>
    intro d x w _ hget
    cases rest with
    | nil =>
      cases d with
      | arr l =>
        simp only [get_value] at hget
        by_cases hdash : part = "-"
        · simp [hdash] at hget
        · simp only [if_neg hdash] at hget
          cases hint : pyInt part with
          | none => simp [hint] at hget
          | some i =>
            simp only [hint] at hget
            cases hnorm : pyNorm l.length i with
            | none => simp [hnorm] at hget
            | some k =>
              refine ⟨.arr (l.set k x), ?_, ?_⟩
              · simp [set_value, if_neg hdash, hint, pySet, hnorm]
              · have hk := pyNorm_lt hnorm
                have hgetk : (l.set k x).get? k = some x :=
                  List.get?_set_eq_of_lt x hk
                simp only [get_value, if_neg hdash, hint, List.length_set, hnorm]
                rw [list_getD_eq Json.null hgetk]
      | obj dd =>
        simp only [get_value] at hget
        cases hdg : dictGet dd part with
        | none => simp [hdg] at hget
        | some child =>
          refine ⟨.obj (dictSet dd part x), ?_, ?_⟩
          · simp only [set_value]
          · simp [get_value, dictGet_dictSet_self]
      | null => simp [get_value] at hget
      | bool b => simp [get_value] at hget
      | num n => simp [get_value] at hget
      | str s => simp [get_value] at hget
    | cons r rs =>
      cases d with
      | arr l =>
        simp only [get_value] at hget
        by_cases hdash : part = "-"
        · simp [hdash] at hget
        · simp only [if_neg hdash] at hget
          cases hint : pyInt part with
          | none => simp [hint] at hget
          | some i =>
            simp only [hint] at hget
            cases hnorm : pyNorm l.length i with
            | none => simp [hnorm] at hget
            | some k =>
              simp only [hnorm] at hget
              obtain ⟨c', hset, hget'⟩ := ih (l.getD k .null) x w (by simp) hget
              refine ⟨.arr (l.set k c'), ?_, ?_⟩
              · simp only [set_value, hint, hnorm]
                rw [hset]
                rfl
              · have hk := pyNorm_lt hnorm
                have hgetk : (l.set k c').get? k = some c' :=
                  List.get?_set_eq_of_lt c' hk
                simp only [get_value, if_neg hdash, hint, List.length_set, hnorm]
                rw [list_getD_eq Json.null hgetk]
                exact hget'
      | obj dd =>
        simp only [get_value] at hget
        cases hdg : dictGet dd part with
        | none => simp [hdg] at hget
        | some child =>
          simp only [hdg] at hget
          obtain ⟨c', hset, hget'⟩ := ih child x w (by simp) hget
          refine ⟨.obj (dictSet dd part c'), ?_, ?_⟩
          · simp only [set_value, hdg]
            rw [hset]
            rfl
          · simp only [get_value, dictGet_dictSet_self]
            exact hget'
      | null => simp [get_value] at hget
      | bool b => simp [get_value] at hget
      | num n => simp [get_value] at hget
      | str s => simp [get_value] at hget

/-- `set_value d p x` takes the append branch (`'-'` final token on a
sequence parent): the only case where the freshly written value is not
readable back at `p` (a subsequent `get` computes `idx = len` and fails). -/
def setAppends (d : Json) : List String → Bool
  | [] => false
  | [last] =>
    match d with
    | .arr _ => last = "-"
    | _ => false
  | part :: rest =>
    match d with
    | .arr l =>
      match pyInt part with
      | some i =>
        match pyNorm l.length i with
        | some k => setAppends (l.getD k .null) rest
        | none => false
      | none => false
    | .obj dd =>
      match dictGet dd part with
      | some c => setAppends c rest
      | none => false
    | _ => false

/-- After a successful non-append `set_value` (add semantics: the final
mapping key need not pre-exist), `get_value` at the same pointer returns
the written value. -/
theorem get_after_set (p : List String) :
    ∀ (d x d' : Json), set_value d p x = .ok d' → setAppends d p = false →
    get_value d' p = .ok x := by
  induction p with
  | nil => intro d x d' hset _; simp [set_value] at hset
  | cons part rest ih =>
    intro d x d' hset happ
    cases rest with
    | nil =>
      cases d with
      | arr l =>
        simp only [setAppends] at happ
        simp only [set_value, if_neg (by simpa using happ)] at hset
        cases hint : pyInt part with
        | none => simp [hint] at hset
        | some i =>
          simp only [hint] at hset
          cases hps : pySet l i x with
          | none => simp [hps] at hset
          | some l' =>
            simp only [hps] at hset
            cases hset
            cases hnorm : pyNorm l.length i with
            | none => simp [pySet, hnorm] at hps
            | some k =>
              simp only [pySet, hnorm, Option.map] at hps
              cases hps
              have hk := pyNorm_lt hnorm
              have hgetk : (l.set k x).get? k = some x :=
                List.get?_set_eq_of_lt x hk
              simp only [get_value, if_neg (by simpa using happ), hint,
                List.length_set, hnorm]
              rw [list_getD_eq Json.null hgetk]
      | obj dd =>
        simp only [set_value] at hset
        cases hset
        simp [get_value, dictGet_dictSet_self]
      | null => simp [set_value] at hset
      | bool b => simp [set_value] at hset
      | num n => simp [set_value] at hset
      | str s => simp [set_value] at hset
    | cons r rs =>
      cases d with
      | arr l =>
        simp only [set_value] at hset
        cases hint : pyInt part with
        | none => simp [hint] at hset
        | some i =>
          simp only [hint] at hset
          cases hnorm : pyNorm l.length i with
          | none => simp [hnorm] at hset
          | some k =>
            simp only [hnorm] at hset
            cases hrec : set_value (l.getD k .null) (r :: rs) x with
            | error e => rw [hrec] at hset; simp [Except.map] at hset
            | ok c' =>
              rw [hrec] at hset
              simp only [Except.map] at hset
              cases hset
              simp only [setAppends, hint, hnorm] at happ
              have hk := pyNorm_lt hnorm
              have hgetk : (l.set k c').get? k = some c' :=
                List.get?_set_eq_of_lt c' hk
              have hdash : ¬ part = "-" := by
                intro hcontr
                rw [hcontr] at hint
                have hd : pyInt "-" = none := by decide
                simp [hd] at hint
              simp only [get_value, if_neg hdash, hint, List.length_set, hnorm]
              rw [list_getD_eq Json.null hgetk]
              exact ih _ x c' hrec happ
      | obj dd =>
        simp only [set_value] at hset
        cases hdg : dictGet dd part with
        | none => simp [hdg] at hset
        | some child =>
          simp only [hdg] at hset
          cases hrec : set_value child (r :: rs) x with
          | error e => rw [hrec] at hset; simp [Except.map] at hset
          | ok c' =>
            rw [hrec] at hset
            simp only [Except.map] at hset
            cases hset
            simp only [setAppends, hdg] at happ
            simp only [get_value, dictGet_dictSet_self]
            exact ih _ x c' hrec happ
      | null => simp [set_value] at hset
      | bool b => simp [set_value] at hset
      | num n => simp [set_value] at hset
      | str s => simp [set_value] at hset

/-- The `get_value` walk composes over path concatenation. -/
theorem get_value_append (p : List String) :
    ∀ (q : List String) (d : Json),
    get_value d (p ++ q) = (get_value d p).bind (fun m => get_value m q) := by
  induction p with
  | nil => intro q d; simp [get_value_nil, Except.bind]
  | cons part rest ih =>
    intro q d
    cases d with
    | arr l =>
      simp only [List.cons_append, get_value]
      by_cases hdash : part = "-"
      · simp [hdash, Except.bind]
      · simp only [if_neg hdash]
        cases hint : pyInt part with
        | none => simp [hint, Except.bind]
        | some i =>
          cases hnorm : pyNorm l.length i with
          | none => simp [hint, hnorm, Except.bind]
          | some k => simp [hint, hnorm, ih]
    | obj dd =>
      simp only [List.cons_append, get_value]
      cases hdg : dictGet dd part with
      | none => simp [hdg, Except.bind]
      | some c => simp [hdg, ih]
    | null => simp [get_value, Except.bind]
    | bool b => simp [get_value, Except.bind]
    | num n => simp [get_value, Except.bind]
    | str s => simp [get_value, Except.bind]

theorem pyInt_dash : pyInt "-" = none := by decide

/-- Unfolding of `set_value`'s walk step on a sequence node when the tail
is not yet final (stated for an arbitrary nonempty tail, which the
generated equations cannot match). -/
theorem set_value_descend_arr {l : List Json} {part : String} {q : List String}
    {x : Json} {i : Int} {k : Nat} (hq : q ≠ []) (hint : pyInt part = some i)
    (hnorm : pyNorm l.length i = some k) :
    set_value (.arr l) (part :: q) x =
      (set_value (l.getD k .null) q x).map (fun c => .arr (l.set k c)) := by
  cases q with
  | nil => exact absurd rfl hq
  | cons a b => simp only [set_value, hint, hnorm]

/-- Unfolding of `set_value`'s walk step on a mapping node for an
arbitrary nonempty tail. -/
theorem set_value_descend_obj {dd : List (String × Json)} {part : String}
    {q : List String} {x child : Json} (hq : q ≠ [])
    (hdg : dictGet dd part = some child) :
    set_value (.obj dd) (part :: q) x =
      (set_value child q x).map (fun c => .obj (dictSet dd part c)) := by
  cases q with
  | nil => exact absurd rfl hq
  | cons a b => simp only [set_value, hdg]

/-- C5: for `set` on a sequence parent (reached through any resolvable
prefix), the final token `'-'` appends the value at the end; an in-range
numeric token (Python normalisation, negative indices included) performs
direct assignment at that existing index, preserving the length — so
`'-'` is the only way `set` can grow a sequence; an out-of-range numeric
token, in particular one equal to the current length, raises `IndexError`
rather than growing the sequence. -/
theorem set_on_sequence_parent (p' : List String) :
    ∀ (d : Json) (l : List Json) (last : String) (x : Json),
    get_value d p' = .ok (.arr l) →
    ((last = "-" → ∃ d', set_value d (p' ++ [last]) x = .ok d' ∧
        get_value d' p' = .ok (.arr (l ++ [x]))) ∧
     (∀ i k, pyInt last = some i → pyNorm l.length i = some k →
        ∃ d', set_value d (p' ++ [last]) x = .ok d' ∧
          get_value d' p' = .ok (.arr (l.set k x))) ∧
     (∀ i, pyInt last = some i → pyNorm l.length i = none →
        set_value d (p' ++ [last]) x = .error .indexOutOfRange)) := by
  induction p' with
  | nil =>
    intro d l last x hget
    rw [get_value_nil] at hget
    cases hget
    refine ⟨?_, ?_, ?_⟩
    · intro hdash
      subst hdash
      exact ⟨.arr (l ++ [x]), by simp [set_value], get_value_nil _⟩
    · intro i k hint hnorm
      have hdash : ¬ last = "-" := by
        intro hc; rw [hc, pyInt_dash] at hint; cases hint
      refine ⟨.arr (l.set k x), ?_, get_value_nil _⟩
      simp [set_value, if_neg hdash, hint, pySet, hnorm]
    · intro i hint hnorm
      have hdash : ¬ last = "-" := by
        intro hc; rw [hc, pyInt_dash] at hint; cases hint
      simp [set_value, if_neg hdash, hint, pySet, hnorm]
  | cons part ps ih =>
    intro d l last x hget
    cases d with
    | arr l0 =>
      simp only [get_value] at hget
      by_cases hdash : part = "-"
      · simp [hdash] at hget
      · simp only [if_neg hdash] at hget
        cases hint : pyInt part with
        | none => simp [hint] at hget
        | some i =>
          simp only [hint] at hget
          cases hnorm : pyNorm l0.length i with
          | none => simp [hnorm] at hget
          | some k =>
            simp only [hnorm] at hget
            obtain ⟨ha, hb, hc⟩ := ih (l0.getD k .null) l last x hget
            have hk := pyNorm_lt hnorm
            have hstep : ∀ (c' : Json),
                get_value (Json.arr (l0.set k c')) (part :: ps) =
                  get_value c' ps := by
              intro c'
              have hgetk : (l0.set k c').get? k = some c' :=
                List.get?_set_eq_of_lt c' hk
              simp only [get_value, if_neg hdash, hint, List.length_set, hnorm]
              rw [list_getD_eq Json.null hgetk]
            refine ⟨?_, ?_, ?_⟩
            · intro hd
              obtain ⟨c', hset, hget'⟩ := ha hd
              refine ⟨.arr (l0.set k c'), ?_, ?_⟩
              · rw [List.cons_append,
                  set_value_descend_arr (by simp) hint hnorm, hset]
                rfl
              · rw [hstep c']
                exact hget'
            · intro i2 k2 hint2 hnorm2
              obtain ⟨c', hset, hget'⟩ := hb i2 k2 hint2 hnorm2
              refine ⟨.arr (l0.set k c'), ?_, ?_⟩
              · rw [List.cons_append,
                  set_value_descend_arr (by simp) hint hnorm, hset]
                rfl
              · rw [hstep c']
                exact hget'
            · intro i2 hint2 hnorm2
              have herr := hc i2 hint2 hnorm2
              rw [List.cons_append,
                set_value_descend_arr (by simp) hint hnorm, herr]
              rfl
    | obj dd =>
      simp only [get_value] at hget
      cases hdg : dictGet dd part with
      | none => simp [hdg] at hget
      | some child =>
        simp only [hdg] at hget
        obtain ⟨ha, hb, hc⟩ := ih child l last x hget
        have hstep : ∀ (c' : Json),
            get_value (Json.obj (dictSet dd part c')) (part :: ps) =
              get_value c' ps := by
          intro c'
          simp only [get_value, dictGet_dictSet_self]
        refine ⟨?_, ?_, ?_⟩
        · intro hd
          obtain ⟨c', hset, hget'⟩ := ha hd
          refine ⟨.obj (dictSet dd part c'), ?_, ?_⟩
          · rw [List.cons_append, set_value_descend_obj (by simp) hdg, hset]
            rfl
          · rw [hstep c']
            exact hget'
        · intro i2 k2 hint2 hnorm2
          obtain ⟨c', hset, hget'⟩ := hb i2 k2 hint2 hnorm2
          refine ⟨.obj (dictSet dd part c'), ?_, ?_⟩
          · rw [List.cons_append, set_value_descend_obj (by simp) hdg, hset]
            rfl
          · rw [hstep c']
            exact hget'
        · intro i2 hint2 hnorm2
          have herr := hc i2 hint2 hnorm2
          rw [List.cons_append, set_value_descend_obj (by simp) hdg, herr]
          rfl
    | null => simp [get_value] at hget
    | bool b => simp [get_value] at hget
    | num n => simp [get_value] at hget
    | str s => simp [get_value] at hget

theorem pyNorm_of_nonneg {n : Nat} {j : Int} (h0 : 0 ≤ j) (hn : j < (n : Int)) :
    pyNorm n j = some j.toNat := by
  simp [pyNorm, h0, hn]

theorem list_getD_append {α : Type} {l : List α} {x : α} {j : Nat} (d : α)
    (h : j < l.length) : (l ++ [x]).getD j d = l.getD j d := by
  rw [List.getD_eq_getElem?_getD, List.getD_eq_getElem?_getD,
    ← List.get?_eq_getElem?, ← List.get?_eq_getElem?, List.get?_append h]

theorem list_getD_set_self {α : Type} {l : List α} {x : α} {k : Nat} (d : α)
    (h : k < l.length) : (l.set k x).getD k d = x :=
  list_getD_eq d (List.get?_set_eq_of_lt x h)

theorem list_getD_set_ne {α : Type} {l : List α} {x : α} {k j : Nat} (d : α)
    (h : k ≠ j) : (l.set k x).getD j d = l.getD j d := by
  rw [List.getD_eq_getElem?_getD, List.getD_eq_getElem?_getD,
    ← List.get?_eq_getElem?, ← List.get?_eq_getElem?, List.get?_set_ne x l h]

/-- The paths `p` (about to be written by `set_value`) and `q` (about to
be read by `get_value`) demonstrably address disjoint locations of `d`:
walking the common prefix, they take different keys at a mapping node or
different *normalised* indices at a sequence node (an append at the final
`'-'` counts as disjoint from any nonnegative in-range index; a negative
index is relative to the length and so would be moved by an append).
This is the checkable meaning of "non-overlapping pointers". -/
def divergesB (d : Json) : List String → List String → Bool
  | p0 :: ps, q0 :: qs =>
    match d with
    | .obj dd =>
      if p0 = q0 then
        match ps, dictGet dd p0 with
        | [], _ => false
        | _ :: _, some c => divergesB c ps qs
        | _ :: _, none => false
      else true
    | .arr l =>
      match ps with
      | [] =>
        if p0 = "-" then
          match pyInt q0 with
          | some j => decide (0 ≤ j) && decide (j < (l.length : Int))
          | none => false
        else
          match pyInt p0, pyInt q0 with
          | some ip, some jq =>
            match pyNorm l.length ip, pyNorm l.length jq with
            | some ki, some kj => decide (ki ≠ kj)
            | _, _ => false
          | _, _ => false
      | _ :: _ =>
        match pyInt p0, pyInt q0 with
        | some ip, some jq =>
          match pyNorm l.length ip, pyNorm l.length jq with
          | some ki, some kj =>
            if ki = kj then divergesB (l.getD ki .null) ps qs else true
          | _, _ => false
        | _, _ => false
    | _ => false
  | _, _ => false

/-- Frame rule: a successful `set_value` along `p` leaves `get_value`
along a diverging `q` unchanged — the same value is read, or the same
failure is raised. -/
theorem get_set_frame (p : List String) :
    ∀ (d x d' : Json) (q : List String),
    set_value d p x = .ok d' → divergesB d p q = true →
    get_value d' q = get_value d q := by
  induction p with
  | nil => intro d x d' q _ hdiv; simp [divergesB] at hdiv
  | cons p0 ps ih =>
    intro d x d' q hset hdiv
    cases q with
    | nil => simp [divergesB] at hdiv
    | cons q0 qs =>
      cases d with
      | null => simp [divergesB] at hdiv
      | bool b => simp [divergesB] at hdiv
      | num n => simp [divergesB] at hdiv
      | str s => simp [divergesB] at hdiv
      | obj dd =>
        by_cases hpq : p0 = q0
        · subst hpq
          simp only [divergesB, if_pos rfl] at hdiv
          cases ps with
          | nil => simp at hdiv
          | cons a b =>
            cases hdg : dictGet dd p0 with
            | none => simp [hdg] at hdiv
            | some c =>
              simp only [hdg] at hdiv
              rw [set_value_descend_obj (by simp) hdg] at hset
              cases hrec : set_value c (a :: b) x with
              | error e => rw [hrec] at hset; simp [Except.map] at hset
              | ok c' =>
                rw [hrec] at hset
                simp only [Except.map] at hset
                cases hset
                simp only [get_value, dictGet_dictSet_self, hdg]
                exact ih c x c' qs hrec hdiv
        · -- different keys: the set touches only `p0`, the read only `q0`
          have hne : q0 ≠ p0 := fun h => hpq h.symm
          have hfin : ∃ w, d' = Json.obj (dictSet dd p0 w) := by
            cases ps with
            | nil =>
              simp only [set_value] at hset
              cases hset
              exact ⟨x, rfl⟩
            | cons a b =>
              cases hdg : dictGet dd p0 with
              | none => simp [set_value, hdg] at hset
              | some c =>
                rw [set_value_descend_obj (by simp) hdg] at hset
                cases hrec : set_value c (a :: b) x with
                | error e => rw [hrec] at hset; simp [Except.map] at hset
                | ok c' =>
                  rw [hrec] at hset
                  simp only [Except.map] at hset
                  cases hset
                  exact ⟨c', rfl⟩
          obtain ⟨w, hw⟩ := hfin
          subst hw
          simp only [get_value, dictGet_dictSet_ne dd p0 q0 w hne]
      | arr l =>
        cases ps with
        | nil =>
          by_cases hdash : p0 = "-"
          · subst hdash
            simp only [divergesB, if_pos rfl] at hdiv
            cases hjq : pyInt q0 with
            | none => simp [hjq] at hdiv
            | some j =>
              simp only [hjq] at hdiv
              have hdiv2 : 0 ≤ j ∧ j < (l.length : Int) := by simpa using hdiv
              obtain ⟨hj0, hjl⟩ := hdiv2
              simp only [set_value, if_pos rfl] at hset
              cases hset
              have hq0 : ¬ q0 = "-" := by
                intro hc; rw [hc, pyInt_dash] at hjq; cases hjq
              have hjlt : j.toNat < l.length := by omega
              have h1 : pyNorm l.length j = some j.toNat :=
                pyNorm_of_nonneg hj0 hjl
              have h2 : pyNorm (l ++ [x]).length j = some j.toNat := by
                apply pyNorm_of_nonneg hj0
                simp only [List.length_append, List.length_cons,
                  List.length_nil]
                omega
              simp only [get_value, if_neg hq0, hjq, h1, h2,
                list_getD_append Json.null hjlt]
          · simp only [divergesB, if_neg hdash] at hdiv
            cases hip : pyInt p0 with
            | none => simp [hip] at hdiv
            | some ip =>
              cases hjq : pyInt q0 with
              | none => simp [hip, hjq] at hdiv
              | some jq =>
                simp only [hip, hjq] at hdiv
                cases hki : pyNorm l.length ip with
                | none => simp [hki] at hdiv
                | some ki =>
                  cases hkj : pyNorm l.length jq with
                  | none => simp [hki, hkj] at hdiv
                  | some kj =>
                    simp only [hki, hkj, decide_eq_true_eq] at hdiv
                    simp only [set_value, if_neg hdash, hip, pySet, hki,
                      Option.map] at hset
                    cases hset
                    have hq0 : ¬ q0 = "-" := by
                      intro hc; rw [hc, pyInt_dash] at hjq; cases hjq
                    simp only [get_value, if_neg hq0, hjq, List.length_set,
                      hkj, list_getD_set_ne Json.null hdiv]
        | cons a b =>
          simp only [divergesB] at hdiv
          cases hip : pyInt p0 with
          | none => simp [hip] at hdiv
          | some ip =>
            cases hjq : pyInt q0 with
            | none => simp [hip, hjq] at hdiv
            | some jq =>
              simp only [hip, hjq] at hdiv
              cases hki : pyNorm l.length ip with
              | none => simp [hki] at hdiv
              | some ki =>
                cases hkj : pyNorm l.length jq with
                | none => simp [hki, hkj] at hdiv
                | some kj =>
                  simp only [hki, hkj] at hdiv
                  rw [set_value_descend_arr (by simp) hip hki] at hset
                  cases hrec : set_value (l.getD ki .null) (a :: b) x with
                  | error e => rw [hrec] at hset; simp [Except.map] at hset
                  | ok c' =>
                    rw [hrec] at hset
                    simp only [Except.map] at hset
                    cases hset
                    have hq0 : ¬ q0 = "-" := by
                      intro hc; rw [hc, pyInt_dash] at hjq; cases hjq
                    by_cases hkk : ki = kj
                    · subst hkk
                      simp only [if_pos rfl] at hdiv
                      have hk := pyNorm_lt hki
                      simp only [get_value, if_neg hq0, hjq, List.length_set,
                        hkj, list_getD_set_self Json.null hk]
                      exact ih _ x c' qs hrec hdiv
                    · simp only [get_value, if_neg hq0, hjq, List.length_set,
                        hkj, list_getD_set_ne Json.null hkk]

theorem list_get?_getD {α : Type} {l : List α} {k : Nat} (d : α)
    (h : k < l.length) : l.get? k = some (l.getD k d) := by
  cases hg : l.get? k with
  | none =>
    rw [List.get?_eq_getElem?] at hg
    simp [List.getElem?_eq_none_iff] at hg
    omega
  | some v => rw [list_getD_eq d hg]

/-- `delete_value`'s walk step on a sequence node, for an arbitrary
nonempty tail. -/
theorem delete_value_descend_arr {l : List Json} {part : String}
    {q : List String} {i : Int} {k : Nat} (hq : q ≠ [])
    (hint : pyInt part = some i) (hnorm : pyNorm l.length i = some k) :
    delete_value (.arr l) (part :: q) =
      (delete_value (l.getD k .null) q).map (fun c => .arr (l.set k c)) := by
  cases q with
  | nil => exact absurd rfl hq
  | cons a b => simp only [delete_value, hint, hnorm]

/-- `delete_value`'s walk step on a mapping node, for an arbitrary
nonempty tail. -/
theorem delete_value_descend_obj {dd : List (String × Json)} {part : String}
    {q : List String} {child : Json} (hq : q ≠ [])
    (hdg : dictGet dd part = some child) :
    delete_value (.obj dd) (part :: q) =
      (delete_value child q).map (fun c => .obj (dictSet dd part c)) := by
  cases q with
  | nil => exact absurd rfl hq
  | cons a b => simp only [delete_value, hdg]

/-- After a successful `delete_value` whose final token addressed a key of
a *mapping* parent in a well-formed (duplicate-free) document, `get_value`
at the deleted pointer fails with `KeyError` on that key. -/
theorem get_after_delete_obj (p' : List String) :
    ∀ (d d1 : Json) (k : String) (dd : List (String × Json)),
    wfJ d = true →
    get_value d p' = .ok (.obj dd) →
    delete_value d (p' ++ [k]) = .ok d1 →
    get_value d1 (p' ++ [k]) = .error (.keyNotFound k) := by
  induction p' with
  | nil =>
    intro d d1 k dd hwf hget hdel
    rw [get_value_nil] at hget
    cases hget
    simp only [List.nil_append] at hdel ⊢
    simp only [delete_value] at hdel
    cases hdd : dictDel dd k with
    | none => simp [hdd] at hdel
    | some d2 =>
      simp only [hdd] at hdel
      cases hdel
      simp only [wfJ, Bool.and_eq_true] at hwf
      have hnone := dictGet_dictDel_self dd k d2 hwf.1 hdd
      simp [get_value, hnone]
  | cons part ps ih =>
    intro d d1 k dd hwf hget hdel
    cases d with
    | arr l =>
      simp only [get_value] at hget
      by_cases hdash : part = "-"
      · simp [hdash] at hget
      · simp only [if_neg hdash] at hget
        cases hint : pyInt part with
        | none => simp [hint] at hget
        | some i =>
          simp only [hint] at hget
          cases hnorm : pyNorm l.length i with
          | none => simp [hnorm] at hget
          | some ki =>
            simp only [hnorm] at hget
            rw [List.cons_append] at hdel
            rw [delete_value_descend_arr (by simp) hint hnorm] at hdel
            cases hrec : delete_value (l.getD ki .null) (ps ++ [k]) with
            | error e => rw [hrec] at hdel; simp [Except.map] at hdel
            | ok c1 =>
              rw [hrec] at hdel
              simp only [Except.map] at hdel
              cases hdel
              have hk := pyNorm_lt hnorm
              have hwfc : wfJ (l.getD ki .null) = true := by
                simp only [wfJ] at hwf
                exact wfList_get hwf (list_get?_getD Json.null hk)
              have hih := ih _ c1 k dd hwfc hget hrec
              rw [List.cons_append]
              simp only [get_value, if_neg hdash, hint, List.length_set,
                hnorm, list_getD_set_self Json.null hk]
              exact hih
    | obj dd0 =>
      simp only [get_value] at hget
      cases hdg : dictGet dd0 part with
      | none => simp [hdg] at hget
      | some child =>
        simp only [hdg] at hget
        rw [List.cons_append] at hdel
        rw [delete_value_descend_obj (by simp) hdg] at hdel
        cases hrec : delete_value child (ps ++ [k]) with
        | error e => rw [hrec] at hdel; simp [Except.map] at hdel
        | ok c1 =>
          rw [hrec] at hdel
          simp only [Except.map] at hdel
          cases hdel
          have hwfc : wfJ child = true := by
            simp only [wfJ, Bool.and_eq_true] at hwf
            exact wfFields_get hwf.2 hdg
          have hih := ih _ c1 k dd hwfc hget hrec
          rw [List.cons_append]
          simp only [get_value, dictGet_dictSet_self]
          exact hih
    | null => simp [get_value] at hget
    | bool b => simp [get_value] at hget
    | num n => simp [get_value] at hget
    | str s => simp [get_value] at hget

/-- C7 (amended): `add` then `remove` at the same path restores the
document exactly when the final token is a mapping key absent from its
parent: the `add` appends the entry at the end of the dict, the `remove`
deletes it again, and the rebuilt containers along the walk are
unchanged.  (When the key already exists, `add` overwrites it and
`remove` then deletes the original entry; on sequence parents `add`
overwrites without shifting, so the pair deletes an element — see the
counterexample.) -/
theorem set_then_delete_fresh_key (p' : List String) :
    ∀ (d : Json) (dd : List (String × Json)) (k : String) (x : Json),
    get_value d p' = .ok (.obj dd) → dictGet dd k = none →
    ∃ d', set_value d (p' ++ [k]) x = .ok d' ∧
      delete_value d' (p' ++ [k]) = .ok d := by
  induction p' with
  | nil =>
    intro d dd k x hget habs
    rw [get_value_nil] at hget
    cases hget
    refine ⟨.obj (dd ++ [(k, x)]), ?_, ?_⟩
    · simp only [List.nil_append, set_value, dictSet_absent dd k x habs]
    · simp only [List.nil_append, delete_value, dictDel_append dd k x habs]
  | cons part ps ih =>
    intro d dd k x hget habs
    cases d with
    | arr l =>
      simp only [get_value] at hget
      by_cases hdash : part = "-"
      · simp [hdash] at hget
      · simp only [if_neg hdash] at hget
        cases hint : pyInt part with
        | none => simp [hint] at hget
        | some i =>
          simp only [hint] at hget
          cases hnorm : pyNorm l.length i with
          | none => simp [hnorm] at hget
          | some ki =>
            simp only [hnorm] at hget
            obtain ⟨c', hset, hdel⟩ := ih (l.getD ki .null) dd k x hget habs
            have hk := pyNorm_lt hnorm
            refine ⟨.arr (l.set ki c'), ?_, ?_⟩
            · rw [List.cons_append,
                set_value_descend_arr (by simp) hint hnorm, hset]
              rfl
            · rw [List.cons_append,
                delete_value_descend_arr (q := ps ++ [k]) (by simp) hint
                  (by rw [List.length_set]; exact hnorm),
                list_getD_set_self Json.null hk, hdel]
              simp only [Except.map]
              rw [List.set_set, list_set_getD l ki Json.null hk]
    | obj dd0 =>
      simp only [get_value] at hget
      cases hdg : dictGet dd0 part with
      | none => simp [hdg] at hget
      | some child =>
        simp only [hdg] at hget
        obtain ⟨c', hset, hdel⟩ := ih child dd k x hget habs
        refine ⟨.obj (dictSet dd0 part c'), ?_, ?_⟩
        · rw [List.cons_append, set_value_descend_obj (by simp) hdg, hset]
          rfl
        · rw [List.cons_append,
            delete_value_descend_obj (q := ps ++ [k]) (by simp)
              (dictGet_dictSet_self dd0 part c'), hdel]
          simp only [Except.map]
          rw [dictSet_dictSet, dictSet_same dd0 part child hdg]
    | null => simp [get_value] at hget
    | bool b => simp [get_value] at hget
    | num n => simp [get_value] at hget
    | str s => simp [get_value] at hget

/-! ## Merge lemmas -/

/-- A loadable fragment: a mapping with a `lessons` key holding a
sequence. -/
def isFragment (d : Json) : Bool :=
  match jIndex d "lessons" with
  | some (.arr _) => true
  | _ => false

/-- The `lessons` sequence of a fragment (empty for non-fragments). -/
def lessonsOf (d : Json) : List Json :=
  match jIndex d "lessons" with
  | some (.arr l) => l
  | _ => []

/-- In-order concatenation of all fragments' `lessons` sequences. -/
def lessonsCat (docs : List Json) : List Json :=
  (docs.map lessonsOf).join

/-- The base document's `metadata` key, when present, holds a mapping (as
the data model prescribes); a non-mapping `metadata` would make the final
uncaught assignment raise. -/
def metadataOK (d : Json) : Bool :=
  match jIndex d "metadata" with
  | some (.obj _) => true
  | some _ => false
  | none => true

theorem isFragment_spec {d : Json} (h : isFragment d = true) :
    ∃ newl, jIndex d "lessons" = some (.arr newl) := by
  unfold isFragment at h
  cases hj : jIndex d "lessons" with
  | none => rw [hj] at h; simp at h
  | some v =>
    cases v with
    | arr l => exact ⟨l, rfl⟩
    | null => rw [hj] at h; simp at h
    | bool b => rw [hj] at h; simp at h
    | num n => rw [hj] at h; simp at h
    | str s => rw [hj] at h; simp at h
    | obj fs => rw [hj] at h; simp at h

theorem lessonsOf_eq {d : Json} {l : List Json}
    (h : jIndex d "lessons" = some (.arr l)) : lessonsOf d = l := by
  unfold lessonsOf
  rw [h]

/-- Loop invariant of the merge fold: once a base is installed, each
fragment appends its lessons and adds its count. -/
theorem merge_fold (rest : List Json) :
    ∀ (fs : List (String × Json)) (ls : List Json) (t : Nat),
    rest.all isFragment = true →
    rest.foldl mergeStep (some (.obj (dictSet fs "lessons" (.arr ls)), t)) =
      some (.obj (dictSet fs "lessons" (.arr (ls ++ lessonsCat rest))),
        t + (lessonsCat rest).length) := by
  induction rest with
  | nil => intro fs ls t _; simp [lessonsCat]
  | cons dcur drest ih =>
    intro fs ls t hall
    simp only [List.all_cons, Bool.and_eq_true] at hall
    obtain ⟨hfrag, hall2⟩ := hall
    obtain ⟨newl, hj⟩ := isFragment_spec hfrag
    rw [List.foldl_cons]
    have hstep : mergeStep (some (.obj (dictSet fs "lessons" (.arr ls)), t)) dcur =
        some (.obj (dictSet fs "lessons" (.arr (ls ++ newl))), t + newl.length) := by
      simp only [mergeStep]
      rw [hj]
      simp only [pyLen, jIndex, dictGet_dictSet_self]
      simp only [setTopKey, dictSet_dictSet]
    rw [hstep, ih fs (ls ++ newl) (t + newl.length) hall2]
    have hcat : lessonsCat (dcur :: drest) = newl ++ lessonsCat drest := by
      simp [lessonsCat, lessonsOf_eq hj]
    rw [hcat]
    simp [List.append_assoc, List.length_append]
    omega

/-- C9: `merge_lessons` on a nonempty ordered list of successfully loaded
fragments (each a mapping with a `lessons` sequence): the output's
`lessons` is the in-order concatenation of all fragments' lessons, the
first fragment is the base whose other top-level keys are preserved, and
the base's `metadata` mapping (when present — the data model makes it a
mapping) gets `total_lessons` set to the merged lesson count and
`description` to the fixed banner. -/
theorem merge_lessons_spec (d0 : Json) (rest : List Json)
    (fs0 : List (String × Json)) (ls0 : List Json)
    (hd0 : d0 = .obj fs0) (hls : dictGet fs0 "lessons" = some (.arr ls0))
    (hall : rest.all isFragment = true) (hmeta : metadataOK d0 = true) :
    ∃ m : Json, merge_lessons (d0 :: rest) = .ok m ∧
      jIndex m "lessons" = some (.arr (lessonsCat (d0 :: rest))) ∧
      (∀ k, k ≠ "lessons" → k ≠ "metadata" → jIndex m k = dictGet fs0 k) ∧
      (dictGet fs0 "metadata" = none → jIndex m "metadata" = none) ∧
      (∀ mf, dictGet fs0 "metadata" = some (.obj mf) →
        ∃ mf2, jIndex m "metadata" = some (.obj mf2) ∧
          dictGet mf2 "total_lessons" =
            some (.num ((lessonsCat (d0 :: rest)).length : Int)) ∧
          dictGet mf2 "description" =
            some (.str (mergeDescription (lessonsCat (d0 :: rest)).length))) := by
  subst hd0
  have hj0 : jIndex (.obj fs0) "lessons" = some (.arr ls0) := hls
  have hcat0 : lessonsCat (Json.obj fs0 :: rest) = ls0 ++ lessonsCat rest := by
    simp [lessonsCat, lessonsOf_eq hj0]
  have hfold : (Json.obj fs0 :: rest).foldl mergeStep none =
      some (.obj (dictSet fs0 "lessons" (.arr (ls0 ++ lessonsCat rest))),
        ls0.length + (lessonsCat rest).length) := by
    rw [List.foldl_cons]
    have hstep : mergeStep none (Json.obj fs0) = some (Json.obj fs0, ls0.length) := by
      simp only [mergeStep, hj0, pyLen]
    rw [hstep]
    have hbase : Json.obj fs0 = .obj (dictSet fs0 "lessons" (.arr ls0)) := by
      rw [dictSet_same fs0 "lessons" (.arr ls0) hls]
    rw [hbase]
    exact merge_fold rest fs0 ls0 ls0.length hall
  have hlen : (lessonsCat (Json.obj fs0 :: rest)).length =
      ls0.length + (lessonsCat rest).length := by
    rw [hcat0, List.length_append]
  have hml : "metadata" ≠ "lessons" := by decide
  have hlm : "lessons" ≠ "metadata" := by decide
  have hmetaGet : dictGet (dictSet fs0 "lessons"
      (.arr (ls0 ++ lessonsCat rest))) "metadata" = dictGet fs0 "metadata" :=
    dictGet_dictSet_ne fs0 "lessons" "metadata" _ hml
  unfold merge_lessons
  rw [hfold]
  cases hmf : dictGet fs0 "metadata" with
  | none =>
    simp only [hmetaGet, hmf]
    refine ⟨_, rfl, ?_, ?_, ?_, ?_⟩
    · simp only [jIndex, dictGet_dictSet_self, hcat0]
    · intro k hkl hkm
      simp only [jIndex]
      exact dictGet_dictSet_ne fs0 "lessons" k _ hkl
    · intro _
      simp only [jIndex, hmetaGet, hmf]
    · intro mf hmf2
      cases hmf2
  | some v =>
    cases v with
    | obj mf =>
      simp only [hmetaGet, hmf]
      refine ⟨_, rfl, ?_, ?_, ?_, ?_⟩
      · simp only [jIndex, dictGet_dictSet_ne _ "metadata" "lessons" _ hlm,
          dictGet_dictSet_self, hcat0]
      · intro k hkl hkm
        simp only [jIndex]
        rw [dictGet_dictSet_ne _ "metadata" k _ hkm]
        exact dictGet_dictSet_ne fs0 "lessons" k _ hkl
      · intro hcontr
        cases hcontr
      · intro mfb hmfb
        cases hmfb
        refine ⟨dictSet (dictSet mf "total_lessons"
              (.num ((ls0.length + (lessonsCat rest).length : Nat) : Int)))
            "description"
            (.str (mergeDescription (ls0.length + (lessonsCat rest).length))),
          ?_, ?_, ?_⟩
        · simp only [jIndex, dictGet_dictSet_self]
        · rw [hlen,
            dictGet_dictSet_ne _ "description" "total_lessons" _ (by decide),
            dictGet_dictSet_self]
        · rw [hlen, dictGet_dictSet_self]
    | null => simp [metadataOK, jIndex, hmf] at hmeta
    | bool b => simp [metadataOK, jIndex, hmf] at hmeta
    | num n => simp [metadataOK, jIndex, hmf] at hmeta
    | str s => simp [metadataOK, jIndex, hmf] at hmeta
    | arr l => simp [metadataOK, jIndex, hmf] at hmeta

/-! ## Index-range and dispatcher lemmas -/

theorem pyNorm_none_iff (n : Nat) (i : Int) :
    pyNorm n i = none ↔ (i < -(n : Int) ∨ (n : Int) ≤ i) := by
  unfold pyNorm
  constructor
  · intro h
    split at h
    · split at h
      · cases h
      · omega
    · split at h
      · cases h
      · omega
  · intro h
    rcases h with h | h
    · rw [if_neg (by omega), if_neg (by omega)]
    · rw [if_pos (by omega)]
      rw [if_neg (by omega)]

/-- At a sequence node, an integer token outside `[-n, n-1]` makes `get`
raise `IndexError`; one in `[-n, -1]` reads from the end. -/
theorem get_arr_index (l : List Json) (part : String) (i : Int)
    (hint : pyInt part = some i) :
    ((i < -(l.length : Int) ∨ (l.length : Int) ≤ i) →
      ∀ rest, get_value (.arr l) (part :: rest) = .error .indexOutOfRange) ∧
    (-(l.length : Int) ≤ i → i < 0 →
      get_value (.arr l) [part] =
        .ok (l.getD (l.length - (-i).toNat) .null)) := by
  have hdash : ¬ part = "-" := by
    intro hc; rw [hc, pyInt_dash] at hint; cases hint
  constructor
  · intro hrange rest
    have hnone : pyNorm l.length i = none := (pyNorm_none_iff _ _).mpr hrange
    simp [get_value, if_neg hdash, hint, hnone]
  · intro h1 h2
    have hnorm : pyNorm l.length i = some (l.length - (-i).toNat) := by
      unfold pyNorm
      rw [if_neg (by omega), if_pos (by omega)]
    simp [get_value, if_neg hdash, hint, hnorm, get_value_nil]

/-- The op strings the dispatcher recognises. -/
def isKnownOp (o : Option String) : Bool :=
  o == some "add" || o == some "remove" || o == some "replace" ||
  o == some "test" || o == some "copy" || o == some "move"

/-- An unrecognised op with a parsable path falls through every branch of
the `elif` chain: only the warning is printed, the document is returned
unchanged, and no exception reaches the per-operation handler. -/
theorem applyOne_unknown (d : Json) (patch : Patch) (s : String)
    (ts : List String) (hop : isKnownOp patch.op = false)
    (hpath : patch.path = some s) (hparse : parse_path s = .ok ts) :
    applyOne d patch = .ok d := by
  simp only [isKnownOp, Bool.or_eq_false_iff, beq_eq_false_iff_ne] at hop
  obtain ⟨⟨⟨⟨⟨h1, h2⟩, h3⟩, h4⟩, h5⟩, h6⟩ := hop
  unfold applyOne
  simp only [hpath, hparse]
  rw [if_neg (by simpa using h1), if_neg (by simpa using h2),
    if_neg (by simpa using h3), if_neg (by simpa using h4),
    if_neg (by simpa using h5), if_neg (by simpa using h6)]

/-- The per-operation loop: a successful operation feeds the updated
document to the rest of the patch list. -/
theorem apply_patch_cons_ok (d d' : Json) (p : Patch) (rest : List Patch)
    (ds : List Bool) (h : applyOne d p = .ok d') :
    apply_patch d (p :: rest) ds = apply_patch d' rest ds := by
  simp only [apply_patch, h]

/-- The `move` branch of the dispatcher is exactly the sequence
read-at-`from`, delete-at-`from`, set-at-`path`, in that order. -/
theorem applyOne_move (d : Json) (ps fs : String) (pathP fromP : List String)
    (v d1 d2 : Json)
    (hpp : parse_path ps = .ok pathP) (hpf : parse_path fs = .ok fromP)
    (hget : get_value d fromP = .ok v)
    (hdel : delete_value d fromP = .ok d1)
    (hset : set_value d1 pathP v = .ok d2) :
    applyOne d { op := some "move", path := some ps, fromPath := some fs }
      = .ok d2 := by
  unfold applyOne
  simp only [hpp]
  rw [if_neg (by decide), if_neg (by decide), if_neg (by decide),
    if_neg (by decide), if_neg (by decide), if_pos (by decide)]
  simp only [hpf, hget, hdel, hset]

/-! ## The claims -/

/-- C1 (the code, contradicting the claim): `copy` installs the very
object it read — `set_value(data, path_parts, value)` with the reference
returned by `get_value`, no `deepcopy`.  In the heap semantics, on the
document `{"a": {"x": 1}}`, running the patch
`[{"op":"copy","from":"/a","path":"/b"},
  {"op":"replace","path":"/b/x","value":2}]`
exactly as the dispatcher's `copy` and `replace` branches do leaves the
value observed at the copied-from location `/a/x` equal to `2`: mutating
under the copied-to location `/b` changed the copied-from location,
because the two locations alias.  The claim (and the spec's deep-copy
sentence) requires it to remain `1`. -/
theorem copy_no_deepcopy_aliasing :
    (let h0 : Heap := [.scalar (.num 1), .hobj [("x", 0)], .hobj [("a", 1)]]
     (hget h0 2 ["a", "x"]).map (hread 10 h0) = .ok (some (.num 1))) ∧
    (let h0 : Heap := [.scalar (.num 1), .hobj [("x", 0)], .hobj [("a", 1)]]
     (do
       let fromParts ← parse_path "/a"
       let pathParts ← parse_path "/b"
       let a ← hget h0 2 fromParts              -- value = get_value(data, from)
       let h1 ← hset h0 2 pathParts a           -- set_value(data, path, value)
       let parts2 ← parse_path "/b/x"
       let (h2, va) := halloc h1 (.num 2)
       let h3 ← hset h2 2 parts2 va             -- replace /b/x with 2
       let ax ← hget h3 2 ["a", "x"]
       Except.ok (hread 10 h3 ax))              -- observe /a/x
     = .ok (some (.num 2))) :=
  ⟨rfl, rfl⟩

/-- C3 counterexample: parsing the empty string does not succeed with the
empty token sequence — `"".startswith('/')` is false, so `parse_path("")`
raises `InvalidPointer`, while the claim says it parses to `[]`. -/
theorem parse_path_empty_counterexample :
    parse_path "" = .error (.invalidPointer "") ∧
    ∀ ts, parse_path "" ≠ .ok ts :=
  ⟨rfl, fun _ h => Except.noConfusion h⟩

/-- C3 (amended): the pointer parser fails with `InvalidPointer` exactly
when the input string does not start with `/` — the empty string
included; every string starting with `/` parses successfully. -/
theorem parse_path_fail_iff (s : String) :
    (parse_path s = .error (.invalidPointer s) ↔ s.data.head? ≠ some '/') ∧
    (s.data.head? = some '/' → ∃ ts, parse_path s = .ok ts) := by
  unfold parse_path
  cases hd : s.data with
  | nil => simp
  | cons c cs =>
    by_cases hc : c = '/'
    · subst hc
      simp
    · simp [hc]

/-- Witness for C3's amended theorem at concrete inputs: a string without
a leading slash fails, one with a leading slash parses. -/
theorem parse_path_fail_iff_witness :
    parse_path "abc" = .error (.invalidPointer "abc") ∧
    ∃ ts, parse_path "/a" = .ok ts :=
  ⟨(parse_path_fail_iff "abc").1.mpr (by decide),
   (parse_path_fail_iff "/a").2 (by decide)⟩

/-- C4 counterexample: on the one-element sequence `[7]`, the token `-1`
(an integer literal whose value is not in `[0, 0]`) does not raise
`IndexOutOfRange` — Python's negative indexing returns the last element. -/
theorem get_negative_index_counterexample :
    get_value (.arr [.num 7]) ["-1"] = .ok (.num 7) ∧
    get_value (.arr [.num 7]) ["-1"] ≠ .error .indexOutOfRange :=
  ⟨rfl, fun h => Except.noConfusion h⟩

/-- C4 (amended): at a sequence node of length `n` reached during the
`get` walk, an integer-literal token fails with `IndexOutOfRange` exactly
when its value lies outside `[-n, n-1]`; values in `[-n, -1]` resolve
from the end of the sequence (Python indexing). -/
theorem get_seq_index_range (d : Json) (p' : List String) (l : List Json)
    (part : String) (rest : List String) (i : Int)
    (hpre : get_value d p' = .ok (.arr l)) (hint : pyInt part = some i) :
    ((i < -(l.length : Int) ∨ (l.length : Int) ≤ i) →
      get_value d (p' ++ part :: rest) = .error .indexOutOfRange) ∧
    (-(l.length : Int) ≤ i → i < 0 →
      get_value d (p' ++ [part]) =
        .ok (l.getD (l.length - (-i).toNat) .null)) := by
  obtain ⟨h1, h2⟩ := get_arr_index l part i hint
  constructor
  · intro hr
    rw [get_value_append, hpre]
    exact h1 hr rest
  · intro ha hb
    rw [get_value_append, hpre]
    exact h2 ha hb

/-- Witness for C4's amended theorem on `[7, 8]`: token `"5"` is out of
range and fails; token `"-1"` reads the last element. -/
theorem get_seq_index_range_witness :
    get_value (.arr [.num 7, .num 8]) ([] ++ "5" :: []) =
      .error .indexOutOfRange ∧
    get_value (.arr [.num 7, .num 8]) ([] ++ ["-1"]) = .ok (.num 8) := by
  constructor
  · exact (get_seq_index_range (.arr [.num 7, .num 8]) [] [.num 7, .num 8]
      "5" [] 5 rfl (by decide)).1 (by decide)
  · have h := (get_seq_index_range (.arr [.num 7, .num 8]) []
      [.num 7, .num 8] "-1" [] (-1) rfl (by decide)).2 (by decide) (by decide)
    simpa using h

/-- Witness for C2 at a concrete document: replace a lesson title and
read it back. -/
theorem set_get_roundtrip_witness :
    ∃ d', set_value
        (.obj [("lessons", .arr [.obj [("id", .num 1), ("title", .str "old")]])])
        ["lessons", "0", "title"] (.str "new") = .ok d' ∧
      get_value d' ["lessons", "0", "title"] = .ok (.str "new") :=
  set_get_roundtrip ["lessons", "0", "title"]
    (.obj [("lessons", .arr [.obj [("id", .num 1), ("title", .str "old")]])])
    (.str "new") (.str "old") (by simp) rfl

/-- Witness for C5 on `{"xs": [1]}`: `'-'` appends (the spec's end-to-end
append example), and the numeric token equal to the current length fails
instead of growing the sequence. -/
theorem set_on_sequence_parent_witness :
    (∃ d', set_value (.obj [("xs", .arr [.num 1])]) (["xs"] ++ ["-"])
        (.num 2) = .ok d' ∧
      get_value d' ["xs"] = .ok (.arr [.num 1, .num 2])) ∧
    set_value (.obj [("xs", .arr [.num 1])]) (["xs"] ++ ["1"]) (.num 2) =
      .error .indexOutOfRange :=
  ⟨(set_on_sequence_parent ["xs"] (.obj [("xs", .arr [.num 1])])
      [.num 1] "-" (.num 2) rfl).1 rfl,
   (set_on_sequence_parent ["xs"] (.obj [("xs", .arr [.num 1])])
      [.num 1] "1" (.num 2) rfl).2.2 1 (by decide) (by decide)⟩

/-- C6 counterexample: moving `/xs/0` of `{"xs": [10, 20]}` to `/k`
(non-overlapping resolvable pointers) succeeds, after which `get` at the
source pointer `/xs/0` does *not* fail — the later element shifted into
index 0 and is returned — while the claim asserts the get fails with
`IndexOutOfRange`. -/
theorem move_sequence_source_counterexample :
    applyOne (.obj [("xs", .arr [.num 10, .num 20])])
      { op := some "move", path := some "/k", fromPath := some "/xs/0" }
      = .ok (.obj [("xs", .arr [.num 20]), ("k", .num 10)]) ∧
    get_value (.obj [("xs", .arr [.num 20]), ("k", .num 10)]) ["xs", "0"]
      = .ok (.num 20) ∧
    get_value (.obj [("xs", .arr [.num 20]), ("k", .num 10)]) ["xs", "0"]
      ≠ .error .indexOutOfRange :=
  ⟨rfl, rfl, fun h => Except.noConfusion h⟩

/-- C6 (amended): a `move` is exactly read-at-`from`, delete-at-`from`,
set-at-`path`, in that order; for non-overlapping resolvable pointers
(walks that demonstrably diverge, `divergesB`), once the three steps
succeed, `get` at the destination returns the moved value, and when
`from`'s parent is a *mapping*, `get` at `from` fails with `KeyNotFound`
on the removed key.  (When `from`'s parent is a sequence, later elements
shift left and the source index may still resolve — see the
counterexample.) -/
theorem move_mapping_source (d : Json) (p' : List String) (k : String)
    (pathP : List String) (ps fs : String) (v d1 d2 : Json)
    (dd : List (String × Json))
    (hwf : wfJ d = true)
    (hpp : parse_path ps = .ok pathP) (hpf : parse_path fs = .ok (p' ++ [k]))
    (hparent : get_value d p' = .ok (.obj dd))
    (hget : get_value d (p' ++ [k]) = .ok v)
    (hdel : delete_value d (p' ++ [k]) = .ok d1)
    (hset : set_value d1 pathP v = .ok d2)
    (happ : setAppends d1 pathP = false)
    (hdiv : divergesB d1 pathP (p' ++ [k]) = true) :
    applyOne d { op := some "move", path := some ps, fromPath := some fs }
      = .ok d2 ∧
    get_value d2 pathP = .ok v ∧
    get_value d2 (p' ++ [k]) = .error (.keyNotFound k) := by
  refine ⟨applyOne_move d ps fs pathP (p' ++ [k]) v d1 d2 hpp hpf hget hdel
    hset, get_after_set pathP d1 v d2 hset happ, ?_⟩
  rw [get_set_frame pathP d1 v d2 (p' ++ [k]) hset hdiv]
  exact get_after_delete_obj p' d d1 k dd hwf hparent hdel

/-- Witness for C6's amended theorem: move `/a` of
`{"a": 1, "b": 2}` to `/c`; afterwards `/c` reads `1` and `/a` fails with
`KeyNotFound "a"`. -/
theorem move_mapping_source_witness :
    applyOne (.obj [("a", .num 1), ("b", .num 2)])
      { op := some "move", path := some "/c", fromPath := some "/a" }
      = .ok (.obj [("b", .num 2), ("c", .num 1)]) ∧
    get_value (.obj [("b", .num 2), ("c", .num 1)]) ["c"] = .ok (.num 1) ∧
    get_value (.obj [("b", .num 2), ("c", .num 1)]) ([] ++ ["a"])
      = .error (.keyNotFound "a") :=
  move_mapping_source (.obj [("a", .num 1), ("b", .num 2)]) [] "a" ["c"]
    "/c" "/a" (.num 1) (.obj [("b", .num 2)])
    (.obj [("b", .num 2), ("c", .num 1)]) [("a", .num 1), ("b", .num 2)]
    rfl rfl rfl rfl rfl rfl rfl rfl rfl

/-- C7 counterexample: on `{"a": 1}`, `add` at `/a` (key already present)
overwrites, and the following `remove` at `/a` deletes the key — the
result `{}` differs from the original document, refuting the claimed
no-op (the parent is a mapping, so no sequence-shifting proviso applies). -/
theorem add_remove_existing_key_counterexample :
    (set_value (.obj [("a", .num 1)]) ["a"] (.num 2) = .ok (.obj [("a", .num 2)])) ∧
    (delete_value (.obj [("a", .num 2)]) ["a"] = .ok (.obj [])) ∧
    Json.obj [] ≠ Json.obj [("a", .num 1)] :=
  ⟨rfl, rfl, by simp⟩

/-- Witness for C7's amended theorem: adding a fresh key `"b"` under the
nested object at `/a` and removing it restores the document exactly. -/
theorem set_then_delete_fresh_key_witness :
    ∃ d', set_value (.obj [("a", .obj [("x", .num 1)])]) (["a"] ++ ["b"])
        (.num 9) = .ok d' ∧
      delete_value d' (["a"] ++ ["b"]) =
        .ok (.obj [("a", .obj [("x", .num 1)])]) :=
  set_then_delete_fresh_key ["a"] (.obj [("a", .obj [("x", .num 1)])])
    [("x", .num 1)] "b" (.num 9) rfl rfl

/-- C8 counterexample: an unknown op whose `path` does not start with `/`
does raise — `parse_path` runs before the op dispatch, its failure
reaches the per-operation handler, and with the operator declining the
prompt the run halts — refuting "the dispatcher never raises" for
arbitrary unknown operations. -/
theorem unknown_op_bad_path_counterexample :
    applyOne (.obj [("x", .num 1)])
      { op := some "frobnicate", path := some "x" }
      = .error (.invalidPointer "x") ∧
    apply_patch (.obj [("x", .num 1)])
      [{ op := some "frobnicate", path := some "x" }] []
      = .error (.invalidPointer "x") :=
  ⟨rfl, rfl⟩

/-- C8 (amended): a patch whose `op` is not one of the six known kinds
and whose `path` field is present and parses (starts with `/`) is skipped
with only a warning: `applyOne` returns the document unchanged without
any failure, and the patch loop continues with the next operation on the
same document and the same pending decisions. -/
theorem unknown_op_skipped (d : Json) (patch : Patch) (s : String)
    (ts : List String) (rest : List Patch) (ds : List Bool)
    (hop : isKnownOp patch.op = false)
    (hpath : patch.path = some s) (hparse : parse_path s = .ok ts) :
    applyOne d patch = .ok d ∧
    apply_patch d (patch :: rest) ds = apply_patch d rest ds := by
  have h := applyOne_unknown d patch s ts hop hpath hparse
  exact ⟨h, apply_patch_cons_ok d d patch rest ds h⟩

/-- Witness for C8's amended theorem: `{"op":"frobnicate","path":"/x"}`
is skipped and the loop proceeds. -/
theorem unknown_op_skipped_witness :
    applyOne (.obj [("x", .num 1)])
      { op := some "frobnicate", path := some "/x" }
      = .ok (.obj [("x", .num 1)]) ∧
    apply_patch (.obj [("x", .num 1)])
      [{ op := some "frobnicate", path := some "/x" },
       { op := some "remove", path := some "/x" }] []
      = apply_patch (.obj [("x", .num 1)])
          [{ op := some "remove", path := some "/x" }] [] :=
  unknown_op_skipped (.obj [("x", .num 1)])
    { op := some "frobnicate", path := some "/x" } "/x" ["x"]
    [{ op := some "remove", path := some "/x" }] [] rfl rfl rfl

/-- Witness for C9: fragments with 3 and 2 lessons merge to 5 lessons and
`metadata.total_lessons == 5`. -/
theorem merge_lessons_spec_witness :
    ∃ m, merge_lessons
        [.obj [("metadata", .obj [("total_lessons", .num 0)]),
               ("lessons", .arr [.num 1, .num 2, .num 3])],
         .obj [("lessons", .arr [.num 4, .num 5])]] = .ok m ∧
      jIndex m "lessons" =
        some (.arr [.num 1, .num 2, .num 3, .num 4, .num 5]) ∧
      ∃ mf2, jIndex m "metadata" = some (.obj mf2) ∧
        dictGet mf2 "total_lessons" = some (.num 5) := by
  obtain ⟨m, hm, hl, _, _, hmeta⟩ := merge_lessons_spec
    (.obj [("metadata", .obj [("total_lessons", .num 0)]),
           ("lessons", .arr [.num 1, .num 2, .num 3])])
    [.obj [("lessons", .arr [.num 4, .num 5])]]
    [("metadata", .obj [("total_lessons", .num 0)]),
     ("lessons", .arr [.num 1, .num 2, .num 3])]
    [.num 1, .num 2, .num 3] rfl rfl rfl rfl
  obtain ⟨mf2, hmf2, htot, _⟩ := hmeta [("total_lessons", .num 0)] rfl
  exact ⟨m, hm, by simpa using hl, mf2, hmf2, by simpa using htot⟩

/-- C10: the one-character pointer `"/"` parses to the single empty-string
token (not the empty sequence), which `get` uses as the mapping key `""`
at the document root; and no string parses to the empty token sequence,
so no parsed pointer denotes the root itself. -/
theorem parse_path_slash_root :
    parse_path "/" = .ok [""] ∧
    (∀ (fs : List (String × Json)) (v : Json), dictGet fs "" = some v →
      get_value (.obj fs) [""] = .ok v) ∧
    (∀ (s : String) (ts : List String), parse_path s = .ok ts → ts ≠ []) := by
  refine ⟨rfl, ?_, ?_⟩
  · intro fs v h
    simp [get_value, h, get_value_nil]
  · intro s ts hok
    unfold parse_path at hok
    cases hd : s.data with
    | nil => rw [hd] at hok; cases hok
    | cons c cs =>
      rw [hd] at hok
      by_cases hc : c = '/'
      · subst hc
        simp only at hok
        cases hok
        simp [splitSlash_ne_nil]
      · simp [hc] at hok

/-- Witness for C10's embedded implications at concrete inputs. -/
theorem parse_path_slash_root_witness :
    get_value (.obj [("", .num 5)]) [""] = .ok (.num 5) ∧
    (["x"] : List String) ≠ [] :=
  ⟨parse_path_slash_root.2.1 [("", .num 5)] (.num 5) rfl,
   parse_path_slash_root.2.2 "/x" ["x"] rfl⟩
